import Mathlib

/-!
Verification of the Electrode Native core against its specification.

The development shallowly embeds the relevant source modules:
* `Dependency` (name/scope/version identity strings and their regex-cascade
  parser, `Dependency.fromString` / `Dependency.toString` / `Dependency.same` /
  `Dependency.withoutVersion`),
* `BaseGit` (`sync`, `push`, `_doInitialCommit`) from
  `ern-cauldron-api/src/base-git.js`, as a state machine over an abstract
  git world with an action trace,
* `getDownloadedPluginPath` from `ern-core/src/utils.ts`,
* the native-dependency version resolver (`retainHighestVersions`,
  `resolveAcrossModules`), which is not part of the provided sources and is
  therefore modelled from the specification text.
-/

namespace ENative

/-- A dependency identity: `name`, optional `scope`, optional `version`.
Mirrors the JS `Dependency` class fields where `undefined` is `none`. -/
structure Dep where
  name : String
  scope : Option String
  version : Option String
deriving DecidableEq

/-- The (name, scope) identity of a dependency, the key used when versions
are ignored. -/
def Dep.idOf (d : Dep) : String × Option String := (d.name, d.scope)

/-! ### Embedding of the three JS regexes used by `Dependency.fromString`

The source uses unanchored JS regexes with greedy, backtracking semantics:

* `SCOPE_NAME_VERSION_RE = /@(.+)\/(.*)@(.*)/`
* `SCOPE_NAME_NO_VERSION_RE = /@(.+)\/(.+)/`
* `NAME_VERSION_RE = /(.*)@(.*)/`

Each matcher below reproduces the observable behaviour of `test`/`exec` for
its pattern: leftmost start position, greedy quantifiers with backtracking.
-/

/-- Split a character list at the last occurrence of `c`, returning the parts
before and after it.  `none` when `c` does not occur.  This is the behaviour
of a greedy `(.*)c(.*)` group split. -/
def splitLastChar (c : Char) : List Char → Option (List Char × List Char)
  | [] => none
  | x :: xs =>
    match splitLastChar c xs with
    | some (l, r) => some (x :: l, r)
    | none => if x == c then some ([], xs) else none

/-- For `/@(.+)\/(.*)@(.*)/` after the initial `@`: split at the last `/`
whose suffix still contains an `@` (the greedy `(.+)` backtracks until the
remainder `(.*)@(.*)` can match). -/
def slashSplitWithAt : List Char → Option (List Char × List Char)
  | [] => none
  | x :: xs =>
    match slashSplitWithAt xs with
    | some (l, r) => some (x :: l, r)
    | none => if x == '/' && xs.contains '@' then some ([], xs) else none

/-- Attempt `/@(.+)\/(.*)@(.*)/` at a fixed start just after the `@`. -/
def tryScopedVersioned (t : List Char) : Option (List Char × List Char × List Char) :=
  match slashSplitWithAt t with
  | some (g1, rest) =>
    if g1.isEmpty then none
    else
      match splitLastChar '@' rest with
      | some (g2, g3) => some (g1, g2, g3)
      | none => none
  | none => none

/-- `exec` of `SCOPE_NAME_VERSION_RE`: try each `@` start position from the
left, greedy inside. Returns the capture groups (scope, name, version). -/
def execScopeNameVersion : List Char → Option (List Char × List Char × List Char)
  | [] => none
  | x :: xs =>
    if x == '@' then
      match tryScopedVersioned xs with
      | some r => some r
      | none => execScopeNameVersion xs
    else execScopeNameVersion xs

/-- For `/@(.+)\/(.+)/` after the initial `@`: split at the last `/` with a
nonempty suffix. -/
def slashSplitNonempty : List Char → Option (List Char × List Char)
  | [] => none
  | x :: xs =>
    match slashSplitNonempty xs with
    | some (l, r) => some (x :: l, r)
    | none => if x == '/' && !xs.isEmpty then some ([], xs) else none

/-- Attempt `/@(.+)\/(.+)/` at a fixed start just after the `@`. -/
def tryScopedNoVersion (t : List Char) : Option (List Char × List Char) :=
  match slashSplitNonempty t with
  | some (g1, rest) => if g1.isEmpty then none else some (g1, rest)
  | none => none

/-- `exec` of `SCOPE_NAME_NO_VERSION_RE`: capture groups (scope, name). -/
def execScopeNameNoVersion : List Char → Option (List Char × List Char)
  | [] => none
  | x :: xs =>
    if x == '@' then
      match tryScopedNoVersion xs with
      | some r => some r
      | none => execScopeNameNoVersion xs
    else execScopeNameNoVersion xs

/-- `Dependency.fromString`, the regex cascade exactly as in the source:
scoped+versioned, then unscoped+versioned (`NAME_VERSION_RE`, which matches
any string containing `@`), then scoped+unversioned — whose branch builds
`new Dependency(scopeName[2], { version: scopeName[1] })`, putting the scope
capture into the `version` field — then bare name. -/
def fromString (s : String) : Dep :=
  let cs := s.toList
  match execScopeNameVersion cs with
  | some (g1, g2, g3) =>
    { name := String.mk g2, scope := some (String.mk g1), version := some (String.mk g3) }
  | none =>
    match splitLastChar '@' cs with
    | some (g1, g2) =>
      { name := String.mk g1, scope := none, version := some (String.mk g2) }
    | none =>
      match execScopeNameNoVersion cs with
      | some (g1, g2) =>
        { name := String.mk g2, scope := none, version := some (String.mk g1) }
      | none => { name := s, scope := none, version := none }

/-- `Dependency.toString`: `[@scope/]name[@version]`. -/
def depToString (d : Dep) : String :=
  (match d.scope with
   | some sc => "@" ++ sc ++ "/"
   | none => "") ++
  d.name ++
  (match d.version with
   | some v => "@" ++ v
   | none => "")

/-- `Dependency.same`: names and scopes equal, and versions equal unless
`ignoreVersion` is set. -/
def Dep.same (depA depB : Dep) (ignoreVersion : Bool) : Bool :=
  (depA.name == depB.name) && (depA.scope == depB.scope) &&
    (ignoreVersion || (depA.version == depB.version))

/-- `Dependency.withoutVersion`: a copy with the version cleared. -/
def Dep.withoutVersion (d : Dep) : Dep :=
  { name := d.name, scope := d.scope, version := none }

/-! ### Version comparison

Modelled from the spec: "whichever version is higher under semantic-version
comparison (numeric major.minor.patch, pre-release segments lower than
release)"; "comparing two versions where one is not syntactically a valid
semantic version falls back to a string comparison". -/

/-- Split a character list on a separator character (like `String.splitOn`
with a one-character separator). -/
def splitOnChar (c : Char) : List Char → List (List Char)
  | [] => [[]]
  | x :: xs =>
    match splitOnChar c xs with
    | [] => [[]]
    | h :: t => if x == c then [] :: h :: t else (x :: h) :: t

/-- Read a nonempty all-digit character list as a number. -/
def charsToNat? : List Char → Option Nat
  | [] => none
  | l =>
    l.foldl
      (fun acc ch =>
        match acc with
        | none => none
        | some n => if ch.isDigit then some (n * 10 + (ch.toNat - 48)) else none)
      (some 0)

/-- Parse a `major.minor.patch[-prerelease]` semantic version; `none` when
the string is not syntactically a semantic version. -/
def parseSemVer (s : String) : Option (Nat × Nat × Nat × Option String) :=
  match splitOnChar '.' s.toList with
  | [a, b, c] =>
    match charsToNat? a, charsToNat? b with
    | some ma, some mi =>
      (match splitOnChar '-' c with
       | [p] =>
         match charsToNat? p with
         | some pa => some (ma, mi, pa, none)
         | none => none
       | p :: rest =>
         match charsToNat? p with
         | some pa => some (ma, mi, pa, some (String.mk (List.intercalate ['-'] rest)))
         | none => none
       | [] => none)
    | _, _ => none
  | _ => none

/-- Lexicographic (code-point) ordering of character lists; the string
ordering used for the non-semver fallback comparison. -/
def charsLt : List Char → List Char → Bool
  | [], [] => false
  | [], _ :: _ => true
  | _ :: _, [] => false
  | a :: as, b :: bs => if a == b then charsLt as bs else decide (a < b)

/-- String comparison (lexicographic by code point). -/
def strLt (a b : String) : Bool := charsLt a.toList b.toList

theorem charsLt_irrefl (l : List Char) : charsLt l l = false := by
  induction l with
  | nil => rfl
  | cons a as ih => simp [charsLt, ih]

theorem charsLt_asymm : ∀ {l m : List Char},
    charsLt l m = true → charsLt m l = false
  | [], [], h => by simp [charsLt] at h
  | [], _ :: _, _ => by simp [charsLt]
  | _ :: _, [], h => by simp [charsLt] at h
  | a :: as, b :: bs, h => by
    by_cases hab : a = b
    · subst hab
      simp only [charsLt, beq_self_eq_true, if_true] at h ⊢
      exact charsLt_asymm h
    · have h1 : (a == b) = false := by simpa using hab
      have h2 : (b == a) = false := by simpa using fun e => hab e.symm
      simp only [charsLt, h1, h2, Bool.false_eq_true, if_false,
        decide_eq_true_eq] at h ⊢
      simpa using le_of_lt h

theorem strLt_irrefl (a : String) : strLt a a = false := charsLt_irrefl _

theorem strLt_asymm {a b : String} (h : strLt a b = true) : strLt b a = false :=
  charsLt_asymm h

/-- Pre-release ordering: any pre-release is lower than a release (`none`);
two pre-releases compare as strings. -/
def preLt : Option String → Option String → Bool
  | some _, none => true
  | some a, some b => strLt a b
  | none, _ => false

/-- Strict ordering of parsed semantic versions: lexicographic on
major, minor, patch, then pre-release. -/
def semLt (x y : Nat × Nat × Nat × Option String) : Bool :=
  decide (x.1 < y.1) ||
    (decide (x.1 = y.1) && (decide (x.2.1 < y.2.1) ||
      (decide (x.2.1 = y.2.1) && (decide (x.2.2.1 < y.2.2.1) ||
        (decide (x.2.2.1 = y.2.2.1) && preLt x.2.2.2 y.2.2.2)))))

/-- Strict version ordering on strings: semantic comparison when both sides
parse as semantic versions, plain string comparison otherwise. -/
def verLt (a b : String) : Bool :=
  match parseSemVer a, parseSemVer b with
  | some x, some y => semLt x y
  | _, _ => strLt a b

/-- Lift `verLt` to optional versions; an absent version is lower than any
present one. -/
def verLtO : Option String → Option String → Bool
  | none, some _ => true
  | some a, some b => verLt a b
  | _, none => false

theorem preLt_irrefl (p : Option String) : preLt p p = false := by
  cases p <;> simp [preLt, strLt_irrefl]

theorem preLt_asymm {p q : Option String} (h : preLt p q = true) :
    preLt q p = false := by
  cases p <;> cases q <;> simp_all [preLt]
  exact strLt_asymm h

theorem semLt_irrefl (x : Nat × Nat × Nat × Option String) : semLt x x = false := by
  simp [semLt, preLt_irrefl]

theorem semLt_asymm {x y : Nat × Nat × Nat × Option String}
    (h : semLt x y = true) : semLt y x = false := by
  obtain ⟨a1, b1, c1, p1⟩ := x
  obtain ⟨a2, b2, c2, p2⟩ := y
  by_contra hc
  rw [Bool.not_eq_false] at hc
  simp only [semLt, Bool.or_eq_true, Bool.and_eq_true, decide_eq_true_eq] at h hc
  rcases h with h1 | ⟨e1, h2 | ⟨e2, h3 | ⟨e3, h4⟩⟩⟩ <;>
    rcases hc with c1' | ⟨f1, c2' | ⟨f2, c3' | ⟨f3, c4'⟩⟩⟩ <;>
      try omega
  have := preLt_asymm h4
  simp_all

theorem verLt_irrefl (a : String) : verLt a a = false := by
  unfold verLt
  cases parseSemVer a <;> simp [semLt_irrefl, strLt_irrefl]

theorem verLt_asymm {a b : String} (h : verLt a b = true) : verLt b a = false := by
  unfold verLt at h ⊢
  cases ha : parseSemVer a <;> cases hb : parseSemVer b <;> simp_all
  · exact strLt_asymm h
  · exact strLt_asymm h
  · exact strLt_asymm h
  · exact semLt_asymm h

theorem verLtO_irrefl (v : Option String) : verLtO v v = false := by
  cases v <;> simp [verLtO, verLt_irrefl]

theorem verLtO_asymm {v w : Option String} (h : verLtO v w = true) :
    verLtO w v = false := by
  cases v <;> cases w <;> simp_all [verLtO]
  exact verLt_asymm h

/-! ### The native-dependency version resolver

The resolver module (`retainHighestVersions`, `resolveAcrossModules`) is not
among the provided source files — only its callers are (for example the
`update miniapps` command calls
`resolver.retainHighestVersions(nativeDependencies.resolved, cauldronDependencies)`).
The definitions below are modelled from the specification text (§4.4). -/

/-- The dependency kept for an entry `r` of the resolved list: when the
existing list holds the same (name, scope) identity, keep the higher of the
two versions, otherwise keep `r` unchanged. -/
def retainPick (existing : List Dep) (r : Dep) : Dep :=
  match existing.find? (fun e => decide (e.idOf = r.idOf)) with
  | some e => if verLtO r.version e.version then { r with version := e.version } else r
  | none => r

/-- Modelled from the spec: `retainHighestVersions(resolved, existing)` —
"For every (name, scope) identity present in either list, keep whichever
version is higher under semantic-version comparison; identities present only
in one list pass through unchanged."  The actual resolver source is not in
the provided files. -/
def retainHighestVersions (resolved existing : List Dep) : List Dep :=
  resolved.map (retainPick existing)
  ++ existing.filter (fun e => !(resolved.any (fun r => decide (r.idOf = e.idOf))))

/-- A module together with its declared native dependencies (the
`ModuleDependencySet` collaborator interface of §6). -/
structure ModuleDeps where
  deps : List Dep
deriving DecidableEq

/-- A reported version conflict: the (name, scope) identity and the distinct
declared versions. -/
structure Conflict where
  name : String
  scope : Option String
  versions : List String
deriving DecidableEq

/-- All dependencies declared by any module. -/
def allDeclared (mods : List ModuleDeps) : List Dep :=
  mods.flatMap (·.deps)

/-- The distinct (name, scope) identities declared across modules, in order
of first appearance. -/
def declaredIdentities (mods : List ModuleDeps) : List (String × Option String) :=
  ((allDeclared mods).map Dep.idOf).dedup

/-- The distinct declared versions for one identity, ignoring declarations
whose version is unset. -/
def declaredVersionsFor (mods : List ModuleDeps) (i : String × Option String) :
    List String :=
  (((allDeclared mods).filter (fun d => decide (d.idOf = i))).filterMap
    (·.version)).dedup

/-- The higher of two version strings under `verLt`. -/
def maxVer (a b : String) : String := if verLt a b then b else a

/-- The highest of a list of versions; `none` on the empty list. -/
def highestOf : List String → Option String
  | [] => none
  | v :: vs => some (vs.foldl maxVer v)

/-- Insert a version into a `verLt`-ascending list. -/
def insertVer (v : String) : List String → List String
  | [] => [v]
  | x :: xs => if verLt v x then v :: x :: xs else x :: insertVer v xs

/-- Sort versions ascending under `verLt` (insertion sort). -/
def sortVersions : List String → List String
  | [] => []
  | x :: xs => insertVer x (sortVersions xs)

/-- The resolved dependency emitted for one identity group: no version when
none was declared, the single version when one, the highest when several. -/
def resolvedFor (mods : List ModuleDeps) (i : String × Option String) : Dep :=
  { name := i.1, scope := i.2, version := highestOf (declaredVersionsFor mods i) }

/-- The conflict emitted for one identity group, when the group declares
more than one distinct version: the sorted distinct version list. -/
def conflictFor (mods : List ModuleDeps) (i : String × Option String) :
    Option Conflict :=
  if 2 ≤ (sortVersions (declaredVersionsFor mods i)).length then
    some ⟨i.1, i.2, sortVersions (declaredVersionsFor mods i)⟩
  else none

/-- Modelled from the spec: `resolveAcrossModules` — group all declared
dependencies by (name, scope) ignoring version; per group collect the
distinct declared versions (unset never counts); emit one resolved
dependency per group and one conflict whenever the group declares more than
one distinct version.  The actual resolver source is not in the provided
files. -/
def resolveAcrossModules (mods : List ModuleDeps) : List Dep × List Conflict :=
  let ids := declaredIdentities mods
  (ids.map (resolvedFor mods), ids.filterMap (conflictFor mods))

/-! ### `BaseGit` (`ern-cauldron-api/src/base-git.js`)

`sync`, `push` and `_doInitialCommit` are embedded as transitions on an
abstract git world.  File contents, the commit snapshot, the remote's
per-branch refs and the local remote-tracking refs are explicit; every git
primitive appends a `GitAction` to a trace so that theorems can speak about
which operations ran and which remote/branch they targeted.  A fetch can
fail for a network reason (the `netFail` oracle) or because the remote has
no ref for the fetched branch. -/

/-- A substring test: `containsSub pat s` is true when `pat` occurs inside
`s`.  Embeds the JS `RegExp.test` of a literal pattern. -/
def startsWithChars : List Char → List Char → Bool
  | [], _ => true
  | _ :: _, [] => false
  | p :: ps, c :: cs => p == c && startsWithChars ps cs

def containsSub (pat : List Char) : List Char → Bool
  | [] => startsWithChars pat []
  | c :: cs => startsWithChars pat (c :: cs) || containsSub pat cs

/-- One git (or file-system) primitive performed by `BaseGit`. -/
inductive GitAction where
  | initRepo
  | addRemote (name url : String)
  | setUrl (name url : String)
  | fetch (remote branch : String)
  | reset (ref : String)
  | addFile (file : String)
  | commit (msg : String)
  | push (remote branch : String)
  | writeF (file : String)
deriving DecidableEq

/-- Working-copy / repository contents: file name to content. -/
abbrev Files := List (String × String)

/-- Update an association list at a key (replace, or append at the front). -/
def setAssoc {α : Type} (l : List (String × α)) (k : String) (v : α) :
    List (String × α) :=
  match l with
  | [] => [(k, v)]
  | (k0, v0) :: t => if k0 == k then (k, v) :: t else (k0, v0) :: setAssoc t k v

/-- Look up a key in an association list. -/
def getAssoc {α : Type} (l : List (String × α)) (k : String) : Option α :=
  match l with
  | [] => none
  | (k0, v0) :: t => if k0 == k then some v0 else getAssoc t k

/-- The abstract state a `BaseGit` instance operates on. -/
structure World where
  hasGitDir : Bool
  workFiles : Files
  headCommit : Option Files
  trackingRefs : List (String × Files)
  remoteRefs : List (String × Files)
  remoteUrl : Option String
  trace : List GitAction
deriving DecidableEq

/-- The constructor arguments of `BaseGit` that `sync`/`push` read. -/
structure GitConfig where
  repository : String
  branch : String
deriving DecidableEq

def initOp (w : World) : World :=
  { w with hasGitDir := true, trace := w.trace ++ [.initRepo] }

def addRemoteOp (url : String) (w : World) : World :=
  { w with remoteUrl := some url, trace := w.trace ++ [.addRemote "upstream" url] }

def setUrlOp (url : String) (w : World) : World :=
  { w with remoteUrl := some url, trace := w.trace ++ [.setUrl "upstream" url] }

/-- The error text git produces when the fetched branch has no remote ref;
the source classifies fetch failures by testing
`/Couldn't find remote ref master/` against the stringified error. -/
def noRemoteRefMsg : String := "Couldn't find remote ref master"

/-- `git fetch upstream master`: fails with the injected network error if
any, else with the no-remote-ref error when the remote has no `master` ref,
else records the fetched state in the remote-tracking ref. -/
def fetchOp (netFail : Option String) (w : World) : World × Option String :=
  let w1 := { w with trace := w.trace ++ [.fetch "upstream" "master"] }
  match netFail with
  | some m => (w1, some m)
  | none =>
    match getAssoc w.remoteRefs "master" with
    | none => (w1, some noRemoteRefMsg)
    | some c => ({ w1 with trackingRefs := setAssoc w1.trackingRefs "master" c }, none)

/-- `git reset --hard upstream/master`: set the working copy to the
remote-tracking ref, failing when that ref does not exist. -/
def resetOp (w : World) : Except String World :=
  match getAssoc w.trackingRefs "master" with
  | some c => .ok { w with workFiles := c, trace := w.trace ++ [.reset "upstream/master"] }
  | none => .error "ambiguous argument upstream/master: unknown revision"

def addOp (f : String) (w : World) : World :=
  { w with trace := w.trace ++ [.addFile f] }

def commitOp (msg : String) (w : World) : World :=
  { w with headCommit := some w.workFiles, trace := w.trace ++ [.commit msg] }

/-- `git push upstream <branch>`: publish the head commit as the remote's
ref for that branch (and update the local remote-tracking ref). -/
def pushOp (branch : String) (w : World) : World :=
  match w.headCommit with
  | some c =>
    { w with remoteRefs := setAssoc w.remoteRefs branch c,
             trackingRefs := setAssoc w.trackingRefs branch c,
             trace := w.trace ++ [.push "upstream" branch] }
  | none => { w with trace := w.trace ++ [.push "upstream" branch] }

def writeFileOp (f content : String) (w : World) : World :=
  { w with workFiles := setAssoc w.workFiles f content, trace := w.trace ++ [.writeF f] }

/-- The placeholder marker content written by the bootstrap. -/
def readmeContent : String := "### Cauldron Repository"

/-- `BaseGit.push`: push the configured branch to the `upstream` remote. -/
def pushGit (cfg : GitConfig) (w : World) : World :=
  pushOp cfg.branch w

/-- `BaseGit._doInitialCommit`: when `README.md` is absent from the working
copy, write it, stage it, commit `First Commit!` and push; otherwise do
nothing. -/
def doInitialCommit (cfg : GitConfig) (w : World) : World :=
  if (getAssoc w.workFiles "README.md").isSome then w
  else pushGit cfg (commitOp "First Commit!" (addOp "README.md"
        (writeFileOp "README.md" readmeContent w)))

/-- `BaseGit.sync`: initialize the working copy and register the remote when
absent, refresh the remote url, fetch `master` from `upstream` — on the
no-remote-ref failure run the bootstrap, on any other failure rethrow — and
finally hard-reset to `upstream/master`. -/
def sync (cfg : GitConfig) (netFail : Option String) (w : World) :
    Except String World :=
  let w1 := if w.hasGitDir then w else addRemoteOp cfg.repository (initOp w)
  let w2 := setUrlOp cfg.repository w1
  match fetchOp netFail w2 with
  | (w3, none) => resetOp w3
  | (w3, some e) =>
    if containsSub noRemoteRefMsg.toList e.toList then
      resetOp (doInitialCommit cfg w3)
    else .error e

/-! ### `getDownloadedPluginPath` (`ern-core/src/utils.ts`) -/

/-- A plugin origin object; `type` is a string tag (`"npm"` or `"git"`). -/
structure PluginOrigin where
  ptype : String
  name : String
  scope : Option String
  version : Option String
  url : String
deriving DecidableEq

/-- Inner part of `/.*\/(.*).git/` after the `/`: capture the longest
prefix followed by any character and the literal `git` (the dot in `.git`
is unescaped in the source, so it matches any character). -/
def gitInner : List Char → Option (List Char)
  | [] => none
  | c :: rest =>
    match gitInner rest with
    | some g => some (c :: g)
    | none => if rest.take 3 == ['g', 'i', 't'] then some [] else none

/-- `exec` of `gitDirectoryRe = /.*\/(.*).git/`: the greedy leading `.*`
selects the last `/` whose suffix admits the inner match. -/
def gitDirMatch : List Char → Option (List Char)
  | [] => none
  | x :: xs =>
    match gitDirMatch xs with
    | some g => some g
    | none => if x == '/' then gitInner xs else none

/-- `getDownloadedPluginPath`: `node_modules/[@scope/]name` for npm origins;
the directory captured by `gitDirectoryRe` for git origins with a version;
otherwise the `Unsupported plugin origin type` error. -/
def getDownloadedPluginPath (o : PluginOrigin) : Except String String :=
  let downloadPath : Option String :=
    if o.ptype == "npm" then
      match o.scope with
      | some sc => some ("node_modules/@" ++ sc ++ "/" ++ o.name)
      | none => some ("node_modules/" ++ o.name)
    else if o.ptype == "git" then
      if o.version.isSome then
        match gitDirMatch o.url.toList with
        | some g => some (String.mk g)
        | none => none
      else none
    else none
  match downloadPath with
  | some p => .ok p
  | none => .error ("Unsupported plugin origin type : " ++ o.ptype)

/-! ## Claims -/

/-- C1: the claim states that parsing the scoped unversioned string
`@scope/name` yields name, scope and no version.  On the code it does not:
`NAME_VERSION_RE = /(.*)@(.*)/` is unanchored and matches any string that
contains `@`, so `@myscope/mypkg` is consumed by the unscoped+versioned
branch, producing an empty name and the version `myscope/mypkg`; the
scoped-unversioned branch is unreachable (and would itself store the scope
capture in the `version` field).  This theorem evaluates the parser at the
failing input. -/
theorem C1_scoped_unversioned_misparsed :
    fromString "@myscope/mypkg" =
      { name := "", scope := none, version := some "myscope/mypkg" } ∧
    fromString "@myscope/mypkg" ≠
      { name := "mypkg", scope := some "myscope", version := none } := by
  exact ⟨by decide, by decide⟩

/-- C2: the round-trip law `parse(toCanonicalString(d)) == d` fails on the
code for any dependency with a scope and no version: `toString` renders
`@scope/pkg`, and parsing that string takes the unscoped+versioned branch
(its unanchored regex matches any string containing `@`), yielding an empty
name and version `scope/pkg`.  This theorem evaluates both sides at the
failing input. -/
theorem C2_roundtrip_fails :
    depToString { name := "pkg", scope := some "scope", version := none } = "@scope/pkg" ∧
    fromString (depToString { name := "pkg", scope := some "scope", version := none }) =
      { name := "", scope := none, version := some "scope/pkg" } ∧
    fromString (depToString { name := "pkg", scope := some "scope", version := none }) ≠
      { name := "pkg", scope := some "scope", version := none } := by
  exact ⟨by decide, by decide, by decide⟩

/-- C7: `sameDependency(d, d.withoutVersion())` is true under
`ignoreVersion = true` for every dependency, and false under
`ignoreVersion = false` whenever the version of `d` is set; `withoutVersion`
returns a copy with only the version cleared. -/
theorem C7_same_withoutVersion (d : Dep) :
    Dep.same d d.withoutVersion true = true ∧
    (∀ v, d.version = some v → Dep.same d d.withoutVersion false = false) ∧
    d.withoutVersion = { name := d.name, scope := d.scope, version := none } := by
  refine ⟨?_, ?_, rfl⟩
  · simp [Dep.same, Dep.withoutVersion]
  · intro v hv
    simp [Dep.same, Dep.withoutVersion, hv]

/-- Witness for C7 at a concrete dependency with a set version. -/
theorem C7_same_withoutVersion_witness :
    Dep.same { name := "a", scope := some "s", version := some "1.0.0" }
      (Dep.withoutVersion { name := "a", scope := some "s", version := some "1.0.0" })
      true = true ∧
    Dep.same { name := "a", scope := some "s", version := some "1.0.0" }
      (Dep.withoutVersion { name := "a", scope := some "s", version := some "1.0.0" })
      false = false :=
  ⟨(C7_same_withoutVersion _).1, (C7_same_withoutVersion _).2.1 "1.0.0" rfl⟩

theorem gitDirMatch_eq_none_of_no_slash {l : List Char} (h : '/' ∉ l) :
    gitDirMatch l = none := by
  induction l with
  | nil => rfl
  | cons x xs ih =>
    simp only [List.mem_cons, not_or] at h
    have hx : (x == '/') = false := by
      simpa using fun hx => h.1 hx.symm
    simp [gitDirMatch, ih h.2, hx]

theorem gitInner_append_dotgit (d : List Char) :
    gitInner (d ++ ['.', 'g', 'i', 't']) = some d := by
  induction d with
  | nil => decide
  | cons c cs ih => simp [gitInner, ih]

theorem gitDirMatch_form (p d : List Char) (hd : '/' ∉ d) :
    gitDirMatch (p ++ '/' :: (d ++ ['.', 'g', 'i', 't'])) = some d := by
  induction p with
  | nil =>
    have hnone : gitDirMatch (d ++ ['.', 'g', 'i', 't']) = none := by
      refine gitDirMatch_eq_none_of_no_slash ?_
      simp only [List.mem_append, not_or]
      exact ⟨hd, by decide⟩
    simp [gitDirMatch, hnone, gitInner_append_dotgit]
  | cons x xs ih =>
    simp [gitDirMatch, List.append_eq, ih]

/-- C10: `getDownloadedPluginPath` returns `node_modules/name` (or
`node_modules/@scope/name`) for npm origins, the directory name `<dir>`
captured from a url of the form `.../<dir>.git` for git origins with a set
version, and throws the `Unsupported plugin origin type` error for git
origins whose version is unset or whose url does not match the git
directory pattern, and for every other origin type. -/
theorem C10_getDownloadedPluginPath (o : PluginOrigin) (p d : List Char) :
    (o.ptype = "npm" → o.scope = none →
      getDownloadedPluginPath o = .ok ("node_modules/" ++ o.name)) ∧
    (∀ sc, o.ptype = "npm" → o.scope = some sc →
      getDownloadedPluginPath o = .ok ("node_modules/@" ++ sc ++ "/" ++ o.name)) ∧
    (o.ptype = "git" → o.version.isSome = true → '/' ∉ d →
      o.url = String.mk (p ++ '/' :: (d ++ ['.', 'g', 'i', 't'])) →
      getDownloadedPluginPath o = .ok (String.mk d)) ∧
    (o.ptype = "git" → o.version = none →
      getDownloadedPluginPath o = .error "Unsupported plugin origin type : git") ∧
    (o.ptype = "git" → gitDirMatch o.url.toList = none →
      getDownloadedPluginPath o = .error "Unsupported plugin origin type : git") ∧
    (o.ptype ≠ "npm" → o.ptype ≠ "git" →
      getDownloadedPluginPath o =
        .error ("Unsupported plugin origin type : " ++ o.ptype)) := by
  refine ⟨?_, ?_, ?_, ?_, ?_, ?_⟩
  · intro ht hs
    simp [getDownloadedPluginPath, ht, hs]
  · intro sc ht hs
    simp [getDownloadedPluginPath, ht, hs]
  · intro ht hv hd hu
    have hm : gitDirMatch o.url.data = some d := by
      show gitDirMatch o.url.toList = some d
      rw [hu]
      exact gitDirMatch_form p d hd
    simp [getDownloadedPluginPath, ht, hv, hm]
  · intro ht hv
    simp [getDownloadedPluginPath, ht, hv]
  · intro ht hm
    have hm' : gitDirMatch o.url.data = none := hm
    cases hv : o.version <;> simp [getDownloadedPluginPath, ht, hv, hm']
  · intro h1 h2
    have b1 : (o.ptype == "npm") = false := by simpa using h1
    have b2 : (o.ptype == "git") = false := by simpa using h2
    simp [getDownloadedPluginPath, b1, b2]

/-- Witness for C10: one concrete instance of each origin shape. -/
theorem C10_getDownloadedPluginPath_witness :
    getDownloadedPluginPath ⟨"npm", "x", none, none, ""⟩ = .ok "node_modules/x" ∧
    getDownloadedPluginPath ⟨"npm", "x", some "s", none, ""⟩ = .ok "node_modules/@s/x" ∧
    getDownloadedPluginPath ⟨"git", "", none, some "0.1.1", "https://h/repo.git"⟩ = .ok "repo" ∧
    getDownloadedPluginPath ⟨"git", "", none, none, "https://h/repo.git"⟩ =
      .error "Unsupported plugin origin type : git" ∧
    getDownloadedPluginPath ⟨"git", "", none, some "1", "norepo"⟩ =
      .error "Unsupported plugin origin type : git" ∧
    getDownloadedPluginPath ⟨"bower", "x", none, none, ""⟩ =
      .error "Unsupported plugin origin type : bower" := by
  refine ⟨?_, ?_, ?_, ?_, ?_, ?_⟩
  · rw [(C10_getDownloadedPluginPath ⟨"npm", "x", none, none, ""⟩ [] []).1 rfl rfl]
    rfl
  · rw [(C10_getDownloadedPluginPath ⟨"npm", "x", some "s", none, ""⟩ [] []).2.1 "s" rfl rfl]
    rfl
  · rw [(C10_getDownloadedPluginPath ⟨"git", "", none, some "0.1.1", "https://h/repo.git"⟩
      "https://h".toList "repo".toList).2.2.1 rfl rfl (by decide) (by decide)]
    rfl
  · rw [(C10_getDownloadedPluginPath ⟨"git", "", none, none, "https://h/repo.git"⟩
      [] []).2.2.2.1 rfl rfl]
  · rw [(C10_getDownloadedPluginPath ⟨"git", "", none, some "1", "norepo"⟩
      [] []).2.2.2.2.1 rfl (by decide)]
  · rw [(C10_getDownloadedPluginPath ⟨"bower", "x", none, none, ""⟩
      [] []).2.2.2.2.2 (by decide) (by decide)]
    rfl

theorem getAssoc_setAssoc_self {α : Type} (l : List (String × α)) (k : String) (v : α) :
    getAssoc (setAssoc l k v) k = some v := by
  induction l with
  | nil => simp [setAssoc, getAssoc]
  | cons h t ih =>
    obtain ⟨k0, v0⟩ := h
    by_cases hk : k0 == k
    · simp [setAssoc, getAssoc, hk]
    · simp only [setAssoc, getAssoc, hk]
      simp only [Bool.false_eq_true, if_false, getAssoc, hk, ih]

/-- C3: after a `sync` whose fetch succeeds (no network failure and the
remote has a `master` ref), the working copy equals the fetched remote
state, whatever local drift (working-copy contents, local head commit) the
state held before. -/
theorem C3_sync_resets_to_remote (cfg : GitConfig) (w : World) (c : Files)
    (h : getAssoc w.remoteRefs "master" = some c) :
    (sync cfg none w).map World.workFiles = .ok c := by
  cases hw : w.hasGitDir <;>
    simp [sync, fetchOp, resetOp, setUrlOp, addRemoteOp, initOp, hw, h,
      getAssoc_setAssoc_self, Except.map]

/-- Witness for C3: a drifted working copy is replaced by the remote
content. -/
theorem C3_sync_resets_to_remote_witness :
    getAssoc (World.remoteRefs ⟨true, [("f", "drift")], none, [],
        [("master", [("cauldron.json", "{}")])], none, []⟩) "master" =
      some [("cauldron.json", "{}")] ∧
    (sync ⟨"repo", "master"⟩ none
        ⟨true, [("f", "drift")], none, [], [("master", [("cauldron.json", "{}")])], none, []⟩).map
      World.workFiles = .ok [("cauldron.json", "{}")] :=
  ⟨rfl, C3_sync_resets_to_remote ⟨"repo", "master"⟩ _ _ rfl⟩

/-- C9: `_doInitialCommit` is a no-op (local state, trace and remote all
unchanged) when `README.md` already exists in the working copy; when it is
absent, it writes the marker file, stages it, commits `First Commit!` and
pushes the configured branch. -/
theorem C9_doInitialCommit_guard (cfg : GitConfig) (w : World) :
    ((getAssoc w.workFiles "README.md").isSome = true → doInitialCommit cfg w = w) ∧
    (getAssoc w.workFiles "README.md" = none →
      doInitialCommit cfg w =
        { hasGitDir := w.hasGitDir,
          workFiles := setAssoc w.workFiles "README.md" readmeContent,
          headCommit := some (setAssoc w.workFiles "README.md" readmeContent),
          trackingRefs := setAssoc w.trackingRefs cfg.branch
            (setAssoc w.workFiles "README.md" readmeContent),
          remoteRefs := setAssoc w.remoteRefs cfg.branch
            (setAssoc w.workFiles "README.md" readmeContent),
          remoteUrl := w.remoteUrl,
          trace := w.trace ++ [.writeF "README.md", .addFile "README.md",
            .commit "First Commit!", .push "upstream" cfg.branch] }) := by
  constructor
  · intro h
    simp [doInitialCommit, h]
  · intro h
    simp [doInitialCommit, h, pushGit, pushOp, commitOp, addOp, writeFileOp]

/-- Witness for C9: the no-op branch at a state that has `README.md`, and
the bootstrap branch at a state that lacks it. -/
theorem C9_doInitialCommit_guard_witness :
    doInitialCommit ⟨"repo", "master"⟩
        ⟨true, [("README.md", "old")], none, [], [], none, []⟩ =
      ⟨true, [("README.md", "old")], none, [], [], none, []⟩ ∧
    doInitialCommit ⟨"repo", "master"⟩ ⟨true, [], none, [], [], none, []⟩ =
      ⟨true, [("README.md", readmeContent)], some [("README.md", readmeContent)],
        [("master", [("README.md", readmeContent)])],
        [("master", [("README.md", readmeContent)])], none,
        [.writeF "README.md", .addFile "README.md", .commit "First Commit!",
         .push "upstream" "master"]⟩ := by
  constructor
  · exact (C9_doInitialCommit_guard ⟨"repo", "master"⟩ _).1 rfl
  · rw [(C9_doInitialCommit_guard ⟨"repo", "master"⟩ ⟨true, [], none, [], [], none, []⟩).2 rfl]
    rfl

/-- C4: during `sync`, a fetch failure whose message is the empty-remote
error (`Couldn't find remote ref master`) triggers the bootstrap — the
marker file is written, committed and pushed, and `sync` then proceeds to
the hard reset exactly as a successful fetch would — while a fetch failure
with any other message is re-thrown unchanged, and a successful fetch never
runs the bootstrap commit. -/
theorem C4_sync_bootstrap_iff (cfg : GitConfig) (w : World) :
    (∀ m, containsSub noRemoteRefMsg.toList m.toList = false →
      sync cfg (some m) w = .error m) ∧
    (getAssoc w.remoteRefs "master" = none →
      getAssoc w.workFiles "README.md" = none → cfg.branch = "master" →
      ∃ w', sync cfg none w = .ok w' ∧
        GitAction.writeF "README.md" ∈ w'.trace ∧
        GitAction.addFile "README.md" ∈ w'.trace ∧
        GitAction.commit "First Commit!" ∈ w'.trace ∧
        GitAction.push "upstream" "master" ∈ w'.trace ∧
        getAssoc w'.remoteRefs "master" =
          some (setAssoc w.workFiles "README.md" readmeContent) ∧
        w'.workFiles = setAssoc w.workFiles "README.md" readmeContent) ∧
    (∀ c, getAssoc w.remoteRefs "master" = some c →
      GitAction.commit "First Commit!" ∉ w.trace →
      ∃ w', sync cfg none w = .ok w' ∧
        GitAction.commit "First Commit!" ∉ w'.trace) := by
  refine ⟨?_, ?_, ?_⟩
  · intro m hm
    have hm' : containsSub noRemoteRefMsg.data m.data = false := hm
    cases hw : w.hasGitDir <;>
      simp [sync, fetchOp, setUrlOp, addRemoteOp, initOp, hw, hm']
  · intro hr hf hb
    have hpat : containsSub noRemoteRefMsg.data noRemoteRefMsg.data = true := by
      decide
    cases hw : w.hasGitDir <;>
      simp [sync, fetchOp, resetOp, setUrlOp, addRemoteOp, initOp,
        doInitialCommit, pushGit, pushOp, commitOp, addOp, writeFileOp,
        hw, hr, hf, hb, hpat, getAssoc_setAssoc_self]
  · intro c hc htr
    cases hw : w.hasGitDir <;>
      simp [sync, fetchOp, resetOp, setUrlOp, addRemoteOp, initOp,
        hw, hc, getAssoc_setAssoc_self, htr]

/-- Witness for C4: an other-cause failure is rethrown; an empty remote
with a fresh working copy is bootstrapped; a populated remote never
triggers the bootstrap commit. -/
theorem C4_sync_bootstrap_iff_witness :
    sync ⟨"repo", "master"⟩ (some "connection refused")
        ⟨true, [], none, [], [], none, []⟩ = .error "connection refused" ∧
    (∃ w', sync ⟨"repo", "master"⟩ none ⟨true, [], none, [], [], none, []⟩ = .ok w' ∧
      GitAction.writeF "README.md" ∈ w'.trace ∧
      GitAction.addFile "README.md" ∈ w'.trace ∧
      GitAction.commit "First Commit!" ∈ w'.trace ∧
      GitAction.push "upstream" "master" ∈ w'.trace ∧
      getAssoc w'.remoteRefs "master" = some [("README.md", readmeContent)] ∧
      w'.workFiles = [("README.md", readmeContent)]) ∧
    (∃ w', sync ⟨"repo", "master"⟩ none
        ⟨true, [], none, [], [("master", [("f", "x")])], none, []⟩ = .ok w' ∧
      GitAction.commit "First Commit!" ∉ w'.trace) :=
  ⟨(C4_sync_bootstrap_iff ⟨"repo", "master"⟩ _).1 "connection refused" (by decide),
   (C4_sync_bootstrap_iff ⟨"repo", "master"⟩ ⟨true, [], none, [], [], none, []⟩).2.1
     rfl rfl rfl,
   (C4_sync_bootstrap_iff ⟨"repo", "master"⟩
       ⟨true, [], none, [], [("master", [("f", "x")])], none, []⟩).2.2
     [("f", "x")] rfl (by simp)⟩

/-- C8 counterexample: with branch `develop` supplied to the constructor,
`sync` still fetches `master` and hard-resets to `upstream/master` — its
trace never touches `develop` — while `push` pushes `develop`; so fetch,
reset and push do not all target the supplied branch. -/
theorem C8_branches_counterexample :
    (∃ w', sync ⟨"repo", "develop"⟩ none
        ⟨true, [], none, [], [("master", [("f", "x")])], none, []⟩ = .ok w' ∧
      GitAction.fetch "upstream" "master" ∈ w'.trace ∧
      GitAction.fetch "upstream" "develop" ∉ w'.trace ∧
      GitAction.reset "upstream/master" ∈ w'.trace) ∧
    (pushGit ⟨"repo", "develop"⟩
        ⟨true, [], none, [], [("master", [("f", "x")])], none, []⟩).trace =
      [GitAction.push "upstream" "develop"] := by
  refine ⟨⟨{ hasGitDir := true, workFiles := [("f", "x")], headCommit := none,
             trackingRefs := [("master", [("f", "x")])],
             remoteRefs := [("master", [("f", "x")])], remoteUrl := some "repo",
             trace := [.setUrl "upstream" "repo", .fetch "upstream" "master",
                       .reset "upstream/master"] }, ?_, ?_, ?_, ?_⟩, ?_⟩
  · rfl
  · decide
  · decide
  · decide
  · rfl

/-- C8 amended: `push` targets the branch `b` supplied to the constructor,
but `sync` always fetches `master` from `upstream` and hard-resets to
`upstream/master`, regardless of `b`; fetch, reset and push therefore all
target the same branch exactly when `b = "master"`. -/
theorem C8_branches_amended (cfg : GitConfig) (w : World) (c : Files)
    (hd : w.hasGitDir = true) (hm : getAssoc w.remoteRefs "master" = some c) :
    sync cfg none w = .ok
      { hasGitDir := true, workFiles := c, headCommit := w.headCommit,
        trackingRefs := setAssoc w.trackingRefs "master" c,
        remoteRefs := w.remoteRefs, remoteUrl := some cfg.repository,
        trace := w.trace ++ [.setUrl "upstream" cfg.repository,
          .fetch "upstream" "master", .reset "upstream/master"] } ∧
    (pushGit cfg w).trace = w.trace ++ [.push "upstream" cfg.branch] := by
  constructor
  · simp [sync, fetchOp, resetOp, setUrlOp, addRemoteOp, initOp, hd, hm,
      getAssoc_setAssoc_self]
  · cases hh : w.headCommit <;> simp [pushGit, pushOp, hh]

/-- Witness for C8's amended statement at a non-`master` branch. -/
theorem C8_branches_amended_witness :
    sync ⟨"repo", "develop"⟩ none
        ⟨true, [], none, [], [("master", [("f", "x")])], none, []⟩ = .ok
      { hasGitDir := true, workFiles := [("f", "x")], headCommit := none,
        trackingRefs := [("master", [("f", "x")])],
        remoteRefs := [("master", [("f", "x")])], remoteUrl := some "repo",
        trace := [.setUrl "upstream" "repo", .fetch "upstream" "master",
          .reset "upstream/master"] } ∧
    (pushGit ⟨"repo", "develop"⟩
        ⟨true, [], none, [], [("master", [("f", "x")])], none, []⟩).trace =
      [GitAction.push "upstream" "develop"] := by
  have h := C8_branches_amended ⟨"repo", "develop"⟩
    ⟨true, [], none, [], [("master", [("f", "x")])], none, []⟩ [("f", "x")] rfl rfl
  refine ⟨?_, ?_⟩
  · rw [h.1]
    rfl
  · rw [h.2]
    rfl

/-! ### Lemmas about `retainHighestVersions` -/

theorem retainPick_of_find_some {existing : List Dep} {r e : Dep}
    (h : existing.find? (fun e0 => decide (e0.idOf = r.idOf)) = some e) :
    retainPick existing r =
      if verLtO r.version e.version then { r with version := e.version } else r := by
  unfold retainPick
  rw [h]

theorem retainPick_of_find_none {existing : List Dep} {r : Dep}
    (h : existing.find? (fun e0 => decide (e0.idOf = r.idOf)) = none) :
    retainPick existing r = r := by
  unfold retainPick
  rw [h]

theorem retainPick_idOf (existing : List Dep) (r : Dep) :
    (retainPick existing r).idOf = r.idOf := by
  unfold retainPick
  cases existing.find? (fun e => decide (e.idOf = r.idOf)) with
  | none => rfl
  | some e =>
    by_cases h : verLtO r.version e.version = true <;> simp [h, Dep.idOf]

theorem find?_eq_some_self {l : List Dep} (hn : (l.map Dep.idOf).Nodup)
    {d : Dep} (hd : d ∈ l) {k : String × Option String} (hk : d.idOf = k) :
    l.find? (fun e => decide (e.idOf = k)) = some d := by
  induction l with
  | nil => cases hd
  | cons a t ih =>
    simp only [List.map_cons, List.nodup_cons] at hn
    by_cases ha : a.idOf = k
    · have had : a = d := by
        rcases List.mem_cons.mp hd with h | h
        · exact h.symm
        · refine absurd ?_ hn.1
          rw [ha, ← hk]
          exact List.mem_map_of_mem Dep.idOf h
      rw [List.find?_cons_of_pos _ (by simpa using ha), had]
    · have hdt : d ∈ t := by
        rcases List.mem_cons.mp hd with h | h
        · exact absurd (h ▸ hk) ha
        · exact h
      rw [List.find?_cons_of_neg _ (by simpa using ha)]
      exact ih hn.2 hdt

theorem idOf_inj {l : List Dep} (hn : (l.map Dep.idOf).Nodup)
    {a b : Dep} (ha : a ∈ l) (hb : b ∈ l) (h : a.idOf = b.idOf) : a = b := by
  induction l with
  | nil => cases ha
  | cons x t ih =>
    simp only [List.map_cons, List.nodup_cons] at hn
    rcases List.mem_cons.mp ha with rfl | hat
    · rcases List.mem_cons.mp hb with rfl | hbt
      · rfl
      · exact absurd (h ▸ List.mem_map_of_mem Dep.idOf hbt) hn.1
    · rcases List.mem_cons.mp hb with rfl | hbt
      · exact absurd (h ▸ List.mem_map_of_mem Dep.idOf hat)
          (by simpa [h] using hn.1)
      · exact ih hn.2 hat hbt

theorem map_eq_self_of {α : Type} {l : List α} {f : α → α}
    (h : ∀ a ∈ l, f a = a) : l.map f = l := by
  induction l with
  | nil => rfl
  | cons a t ih =>
    simp only [List.map_cons, h a (List.mem_cons_self a t),
      ih fun x hx => h x (List.mem_cons_of_mem a hx)]

/-- C5 counterexample: `retainHighestVersions(x, x) == x` fails as soon as
`x` repeats a (name, scope) identity with two versions — the duplicate's
version is upgraded to the first occurrence's maximum. -/
theorem C5_idempotence_counterexample :
    retainHighestVersions
        [⟨"A", none, some "2.0"⟩, ⟨"A", none, some "1.0"⟩]
        [⟨"A", none, some "2.0"⟩, ⟨"A", none, some "1.0"⟩] ≠
      [⟨"A", none, some "2.0"⟩, ⟨"A", none, some "1.0"⟩] := by
  decide

/-- C5 amended: on inputs whose (name, scope) identities are pairwise
distinct (the store invariant of §3), `retainHighestVersions` never removes
an identity, keeps for each shared identity the higher of the two versions,
never selects a version lower than either input, passes identities present
in only one list through unchanged, and is idempotent. -/
theorem C5_retainHighestVersions (resolved existing x : List Dep)
    (hR : (resolved.map Dep.idOf).Nodup) (hE : (existing.map Dep.idOf).Nodup)
    (hx : (x.map Dep.idOf).Nodup) :
    (∀ d ∈ resolved ++ existing,
      ∃ o ∈ retainHighestVersions resolved existing, o.idOf = d.idOf) ∧
    (∀ r ∈ resolved, ∀ e ∈ existing, e.idOf = r.idOf →
      (if verLtO r.version e.version then { r with version := e.version } else r) ∈
        retainHighestVersions resolved existing) ∧
    (∀ o ∈ retainHighestVersions resolved existing, ∀ d ∈ resolved ++ existing,
      o.idOf = d.idOf → verLtO o.version d.version = false) ∧
    (∀ d ∈ resolved, (∀ e ∈ existing, e.idOf ≠ d.idOf) →
      d ∈ retainHighestVersions resolved existing) ∧
    (∀ e ∈ existing, (∀ r ∈ resolved, r.idOf ≠ e.idOf) →
      e ∈ retainHighestVersions resolved existing) ∧
    retainHighestVersions x x = x := by
  refine ⟨?_, ?_, ?_, ?_, ?_, ?_⟩
  · intro d hd
    rcases List.mem_append.mp hd with hd | hd
    · exact ⟨retainPick existing d,
        List.mem_append_left _ (List.mem_map_of_mem _ hd), retainPick_idOf _ _⟩
    · by_cases hany : resolved.any (fun r => decide (r.idOf = d.idOf)) = true
      · obtain ⟨r, hr, hrid⟩ := List.any_eq_true.mp hany
        refine ⟨retainPick existing r,
          List.mem_append_left _ (List.mem_map_of_mem _ hr), ?_⟩
        rw [retainPick_idOf]
        simpa using hrid
      · refine ⟨d, List.mem_append_right _ ?_, rfl⟩
        simp only [List.mem_filter, hd, true_and, Bool.not_eq_true']
        exact Bool.not_eq_true _ ▸ (by simpa using hany)
  · intro r hr e he heid
    have hfind : existing.find? (fun e0 => decide (e0.idOf = r.idOf)) = some e :=
      find?_eq_some_self hE he heid
    have : retainPick existing r =
        (if verLtO r.version e.version then { r with version := e.version } else r) := by
      unfold retainPick
      rw [hfind]
    exact this ▸ List.mem_append_left _ (List.mem_map_of_mem _ hr)
  · intro o ho d hd hid
    rcases List.mem_append.mp ho with ho | ho
    · obtain ⟨r, hr, hro⟩ := List.mem_map.mp ho
      rcases List.mem_append.mp hd with hd | hd
      · have hdr : d = r := idOf_inj hR hd hr (by rw [← hid, ← hro, retainPick_idOf])
        subst hdr
        cases hfind : existing.find? (fun e => decide (e.idOf = d.idOf)) with
        | none =>
          rw [retainPick_of_find_none hfind] at hro
          rw [← hro]
          exact verLtO_irrefl _
        | some e =>
          rw [retainPick_of_find_some hfind] at hro
          by_cases hlt : verLtO d.version e.version = true
          · rw [if_pos hlt] at hro
            rw [← hro]
            exact verLtO_asymm hlt
          · rw [if_neg hlt] at hro
            rw [← hro]
            exact verLtO_irrefl _
      · have hfind : existing.find? (fun e0 => decide (e0.idOf = r.idOf)) = some d :=
          find?_eq_some_self hE hd (by rw [← hid, ← hro, retainPick_idOf])
        rw [retainPick_of_find_some hfind] at hro
        by_cases hlt : verLtO r.version d.version = true
        · rw [if_pos hlt] at hro
          rw [← hro]
          exact verLtO_irrefl _
        · rw [if_neg hlt] at hro
          rw [← hro]
          simpa using hlt
    · have hfo := List.mem_filter.mp ho
      have hnone : ∀ r ∈ resolved, r.idOf ≠ o.idOf := by
        intro r hr
        have := hfo.2
        simp only [Bool.not_eq_true', List.any_eq_false, decide_eq_true_eq] at this
        simpa using this r hr
      rcases List.mem_append.mp hd with hd | hd
      · exact absurd hid.symm (hnone d hd)
      · have : o = d := idOf_inj hE hfo.1 hd hid
        rw [← this]
        exact verLtO_irrefl _
  · intro d hd hno
    have hfind : existing.find? (fun e => decide (e.idOf = d.idOf)) = none := by
      rw [List.find?_eq_none]
      intro e he
      simpa using hno e he
    have : retainPick existing d = d := by
      unfold retainPick
      rw [hfind]
    exact this ▸ List.mem_append_left _ (List.mem_map_of_mem _ hd)
  · intro e he hno
    refine List.mem_append_right _ ?_
    simp only [List.mem_filter, he, true_and, Bool.not_eq_true',
      List.any_eq_false, decide_eq_true_eq]
    exact fun r hr => hno r hr
  · unfold retainHighestVersions
    have h1 : x.map (retainPick x) = x := by
      refine map_eq_self_of ?_
      intro r hr
      simp [retainPick_of_find_some (find?_eq_some_self hx hr rfl), verLtO_irrefl]
    have h2 : x.filter (fun e => !(x.any (fun r => decide (r.idOf = e.idOf)))) = [] := by
      rw [List.filter_eq_nil_iff]
      intro e he
      simp only [Bool.not_eq_true', Bool.not_eq_false, List.any_eq_true,
        decide_eq_true_eq]
      exact ⟨e, he, rfl⟩
    rw [h1, h2, List.append_nil]

/-- Witness for C5 at the spec's own examples, which have pairwise-distinct
identities. -/
theorem C5_retainHighestVersions_witness :
    retainHighestVersions [⟨"A", none, some "1.0"⟩] [⟨"A", none, some "2.0"⟩] =
      [⟨"A", none, some "2.0"⟩] ∧
    retainHighestVersions [⟨"A", none, some "1.0"⟩, ⟨"B", none, some "1.0"⟩]
        [⟨"A", none, some "1.0"⟩] =
      [⟨"A", none, some "1.0"⟩, ⟨"B", none, some "1.0"⟩] ∧
    retainHighestVersions [⟨"A", none, some "1.0"⟩] [⟨"A", none, some "1.0"⟩] =
      [⟨"A", none, some "1.0"⟩] := by
  refine ⟨by decide, by decide, ?_⟩
  exact (C5_retainHighestVersions [⟨"A", none, some "1.0"⟩] []
    [⟨"A", none, some "1.0"⟩] (by decide) (by decide) (by decide)).2.2.2.2.2

/-! ### Lemmas about `resolveAcrossModules` -/

theorem countP_eq_one_of_nodup_mem {α : Type} [DecidableEq α] {l : List α}
    (hn : l.Nodup) {i : α} (hi : i ∈ l) :
    l.countP (fun x => decide (x = i)) = 1 := by
  induction l with
  | nil => cases hi
  | cons a t ih =>
    rw [List.nodup_cons] at hn
    rcases List.mem_cons.mp hi with rfl | hit
    · rw [List.countP_cons_of_pos _ _ (by simp)]
      have hz : t.countP (fun x => decide (x = i)) = 0 := by
        rw [List.countP_eq_zero]
        intro x hx
        simp only [decide_eq_true_eq]
        intro e
        exact hn.1 (e ▸ hx)
      rw [hz]
    · rw [List.countP_cons_of_neg _ _ (by
        simp only [decide_eq_true_eq]
        intro e
        exact hn.1 (e ▸ hit))]
      exact ih hn.2 hit

theorem countP_and_eq_ite {α : Type} [DecidableEq α] {l : List α}
    (hn : l.Nodup) {i : α} (hi : i ∈ l) (q : α → Bool) :
    l.countP (fun x => q x && decide (x = i)) = if q i then 1 else 0 := by
  induction l with
  | nil => cases hi
  | cons a t ih =>
    rw [List.nodup_cons] at hn
    rcases List.mem_cons.mp hi with rfl | hit
    · have hz : t.countP (fun x => q x && decide (x = i)) = 0 := by
        rw [List.countP_eq_zero]
        intro x hx
        simp only [Bool.and_eq_true, decide_eq_true_eq, not_and]
        intro _ e
        exact hn.1 (e ▸ hx)
      by_cases hq : q i = true
      · rw [List.countP_cons_of_pos _ _ (by simp [hq]), hz, hq]
        simp
      · rw [List.countP_cons_of_neg _ _ (by simp [hq]), hz]
        simp [hq]
    · rw [List.countP_cons_of_neg _ _ (by
        by_contra hco
        rw [Bool.and_eq_true, decide_eq_true_eq] at hco
        exact hn.1 (hco.2 ▸ hit)), ih hn.2 hit]

theorem countP_filterMap_dite {α β : Type} (P : α → Prop) [DecidablePred P]
    (g : α → β) (p : β → Bool) (l : List α) :
    (l.filterMap (fun a => if P a then some (g a) else none)).countP p =
      l.countP (fun a => decide (P a) && p (g a)) := by
  induction l with
  | nil => rfl
  | cons a t ih =>
    by_cases hq : P a
    · rw [List.filterMap_cons]
      simp only [hq, if_true]
      by_cases hp : p (g a) = true
      · rw [List.countP_cons_of_pos _ _ hp,
          List.countP_cons_of_pos _ _ (by simp [hq, hp]), ih]
      · rw [List.countP_cons_of_neg _ _ (by simpa using hp),
          List.countP_cons_of_neg _ _ (by simp [hq, hp]), ih]
    · rw [List.filterMap_cons]
      simp only [hq, if_false]
      rw [List.countP_cons_of_neg _ _ (by simp [hq]), ih]

theorem perm_insertVer (v : String) (l : List String) :
    (insertVer v l).Perm (v :: l) := by
  induction l with
  | nil => exact List.Perm.refl _
  | cons x xs ih =>
    by_cases h : verLt v x = true
    · simp only [insertVer, h, if_true]
      exact List.Perm.refl _
    · simp only [insertVer, h, if_false]
      exact (ih.cons x).trans (List.Perm.swap v x xs)

theorem perm_sortVersions (l : List String) : (sortVersions l).Perm l := by
  induction l with
  | nil => exact List.Perm.refl _
  | cons x xs ih => exact (perm_insertVer x (sortVersions xs)).trans (ih.cons x)

theorem resolvedFor_idOf (mods : List ModuleDeps) (i : String × Option String) :
    (resolvedFor mods i).idOf = i := rfl

/-- C6: `resolveAcrossModules` groups declarations by (name, scope); every
declared identity gets exactly one resolved entry (with no version when none
was declared, the single version when exactly one distinct version was
declared); an identity gets exactly one conflict precisely when it declares
at least two distinct versions — so identities all of whose declarations
have no version never conflict — and each conflict carries the sorted
distinct version list; finally the two behaviours from the spec examples. -/
theorem C6_resolveAcrossModules (mods : List ModuleDeps) :
    (∀ d ∈ allDeclared mods, d.idOf ∈ declaredIdentities mods) ∧
    (∀ i ∈ declaredIdentities mods,
      (resolveAcrossModules mods).1.countP (fun d => decide (d.idOf = i)) = 1) ∧
    (∀ i ∈ declaredIdentities mods, declaredVersionsFor mods i = [] →
      ({ name := i.1, scope := i.2, version := none } : Dep) ∈
        (resolveAcrossModules mods).1) ∧
    (∀ i ∈ declaredIdentities mods, ∀ v, declaredVersionsFor mods i = [v] →
      ({ name := i.1, scope := i.2, version := some v } : Dep) ∈
        (resolveAcrossModules mods).1) ∧
    (∀ i ∈ declaredIdentities mods,
      (resolveAcrossModules mods).2.countP (fun c => decide ((c.name, c.scope) = i)) =
        if 2 ≤ (declaredVersionsFor mods i).length then 1 else 0) ∧
    (∀ i, i ∉ declaredIdentities mods →
      (resolveAcrossModules mods).2.countP (fun c => decide ((c.name, c.scope) = i)) = 0) ∧
    (∀ i ∈ declaredIdentities mods,
      (∀ d ∈ allDeclared mods, d.idOf = i → d.version = none) →
      (resolveAcrossModules mods).2.countP (fun c => decide ((c.name, c.scope) = i)) = 0) ∧
    (∀ c ∈ (resolveAcrossModules mods).2,
      c.versions = sortVersions (declaredVersionsFor mods (c.name, c.scope)) ∧
      2 ≤ c.versions.length ∧ c.versions.Nodup) ∧
    resolveAcrossModules [⟨[⟨"A", none, some "1.0"⟩]⟩, ⟨[⟨"A", none, some "1.0"⟩]⟩] =
      ([⟨"A", none, some "1.0"⟩], []) ∧
    resolveAcrossModules [⟨[⟨"A", none, some "1.0"⟩]⟩, ⟨[⟨"A", none, some "2.0"⟩]⟩] =
      ([⟨"A", none, some "2.0"⟩], [⟨"A", none, ["1.0", "2.0"]⟩]) := by
  have hids : (declaredIdentities mods).Nodup := List.nodup_dedup _
  have hres : (resolveAcrossModules mods).1 =
      (declaredIdentities mods).map (resolvedFor mods) := rfl
  have hconf : (resolveAcrossModules mods).2 =
      (declaredIdentities mods).filterMap (conflictFor mods) := rfl
  have hconf2 : (resolveAcrossModules mods).2 =
      (declaredIdentities mods).filterMap (fun i =>
        if 2 ≤ (sortVersions (declaredVersionsFor mods i)).length then
          some (⟨i.1, i.2, sortVersions (declaredVersionsFor mods i)⟩ : Conflict)
        else none) := rfl
  have hlen : ∀ i, (sortVersions (declaredVersionsFor mods i)).length =
      (declaredVersionsFor mods i).length :=
    fun i => (perm_sortVersions _).length_eq
  have hcount : ∀ i ∈ declaredIdentities mods,
      (resolveAcrossModules mods).2.countP (fun c => decide ((c.name, c.scope) = i)) =
        if 2 ≤ (declaredVersionsFor mods i).length then 1 else 0 := by
    intro i hi
    rw [hconf2, countP_filterMap_dite
      (fun i0 => 2 ≤ (sortVersions (declaredVersionsFor mods i0)).length)
      (fun i0 => (⟨i0.1, i0.2, sortVersions (declaredVersionsFor mods i0)⟩ : Conflict))
      (fun c => decide ((c.name, c.scope) = i))]
    have := countP_and_eq_ite hids hi
      (fun i0 => decide (2 ≤ (sortVersions (declaredVersionsFor mods i0)).length))
    simp only [hlen] at this ⊢
    simpa using this
  refine ⟨?_, ?_, ?_, ?_, hcount, ?_, ?_, ?_, by decide, by decide⟩
  · intro d hd
    exact List.mem_dedup.mpr (List.mem_map_of_mem _ hd)
  · intro i hi
    rw [hres, List.countP_map]
    have : ((fun d => decide (d.idOf = i)) ∘ resolvedFor mods) =
        fun i0 => decide (i0 = i) := by
      funext i0
      simp [resolvedFor_idOf]
    rw [this]
    exact countP_eq_one_of_nodup_mem hids hi
  · intro i hi hv
    rw [hres]
    have : ({ name := i.1, scope := i.2, version := none } : Dep) =
        resolvedFor mods i := by
      simp [resolvedFor, hv, highestOf]
    rw [this]
    exact List.mem_map_of_mem _ hi
  · intro i hi v hv
    rw [hres]
    have : ({ name := i.1, scope := i.2, version := some v } : Dep) =
        resolvedFor mods i := by
      simp [resolvedFor, hv, highestOf]
    rw [this]
    exact List.mem_map_of_mem _ hi
  · intro i hi
    rw [hconf, List.countP_eq_zero]
    intro c hc
    obtain ⟨i0, hi0, hci⟩ := List.mem_filterMap.mp hc
    unfold conflictFor at hci
    by_cases h2 : 2 ≤ (sortVersions (declaredVersionsFor mods i0)).length
    · rw [if_pos (by simpa using h2)] at hci
      obtain rfl := Option.some.inj hci
      simp only [decide_eq_true_eq]
      intro e
      refine hi ?_
      rw [← e]
      exact hi0
    · rw [if_neg (by simpa using h2)] at hci
      cases hci
  · intro i hi hall
    rw [hcount i hi]
    have hv : declaredVersionsFor mods i = [] := by
      unfold declaredVersionsFor
      have : ((allDeclared mods).filter (fun d => decide (d.idOf = i))).filterMap
          (·.version) = [] := by
        rw [List.filterMap_eq_nil_iff]
        intro d hd
        have hm := List.mem_filter.mp hd
        exact hall d hm.1 (by simpa using hm.2)
      rw [this]
      rfl
    rw [hv]
    simp
  · intro c hc
    rw [hconf] at hc
    obtain ⟨i0, hi0, hci⟩ := List.mem_filterMap.mp hc
    unfold conflictFor at hci
    by_cases h2 : 2 ≤ (sortVersions (declaredVersionsFor mods i0)).length
    · rw [if_pos (by simpa using h2)] at hci
      obtain rfl := Option.some.inj hci
      refine ⟨rfl, h2, ?_⟩
      exact ((perm_sortVersions _).nodup_iff).mpr (List.nodup_dedup _)
    · rw [if_neg (by simpa using h2)] at hci
      cases hci

/-- Witness for C6: the quantified parts instantiated at the spec's
conflicting example, identity `A`. -/
theorem C6_resolveAcrossModules_witness :
    (("A", (none : Option String)) ∈ declaredIdentities
      [⟨[⟨"A", none, some "1.0"⟩]⟩, ⟨[⟨"A", none, some "2.0"⟩]⟩]) ∧
    (resolveAcrossModules
        [⟨[⟨"A", none, some "1.0"⟩]⟩, ⟨[⟨"A", none, some "2.0"⟩]⟩]).1.countP
      (fun d => decide (d.idOf = ("A", none))) = 1 ∧
    (resolveAcrossModules
        [⟨[⟨"A", none, some "1.0"⟩]⟩, ⟨[⟨"A", none, some "2.0"⟩]⟩]).2.countP
      (fun c => decide ((c.name, c.scope) = ("A", none))) =
      if 2 ≤ (declaredVersionsFor
          [⟨[⟨"A", none, some "1.0"⟩]⟩, ⟨[⟨"A", none, some "2.0"⟩]⟩]
          ("A", none)).length then 1 else 0 := by
  refine ⟨by decide, ?_, ?_⟩
  · exact (C6_resolveAcrossModules
      [⟨[⟨"A", none, some "1.0"⟩]⟩, ⟨[⟨"A", none, some "2.0"⟩]⟩]).2.1
      ("A", none) (by decide)
  · exact (C6_resolveAcrossModules
      [⟨[⟨"A", none, some "1.0"⟩]⟩, ⟨[⟨"A", none, some "2.0"⟩]⟩]).2.2.2.2.1
      ("A", none) (by decide)

end ENative
